import Mathlib

/-!
Verification of the `llm_patch_driver` repository: a shallow embedding of the
addressable-document model, the string patch engine, the patch target and the
driver loop, with theorems settling the spec claims.

Text content is modelled as `List Char` (named `PyStr`) so that Python string
operations (`splitlines`, `str.replace`) can be reasoned about by structural
induction.  `splitlines` is modelled with the full set of Python line
boundary characters: newline, carriage return and the CR-LF pair, vertical
tab, form feed, the separators x1c-x1e and x85, and the Unicode line and
paragraph separators u2028 and u2029.

Python `sortedcontainers.SortedDict` with integer keys is modelled as an
association list kept in strictly ascending key order by its operations
(`sdSet`, `sdErase`).  Iteration over a `SortedDict` in the source corresponds
to direct traversal of the list.

Python exceptions (`KeyError`, `IndexError`) raised by patch application are
modelled with `Except`; because the source mutates maps in place, the error
value carries the partially mutated map, exactly as the Python object retains
it after the exception propagates.
-/

set_option maxHeartbeats 1000000
set_option synthInstance.maxSize 1000

abbrev PyStr := List Char

/-- Python exceptions that patch application can raise. -/
inductive PyErr where
  | keyError
  | indexError
  deriving DecidableEq, Repr

/-- Decidable equality for `Except`, needed to evaluate patch application
results on concrete inputs. -/
instance {ε α : Type} [DecidableEq ε] [DecidableEq α] : DecidableEq (Except ε α) :=
  fun a b =>
    match a, b with
    | .ok x, .ok y =>
      if h : x = y then isTrue (by rw [h]) else isFalse (by simp [h])
    | .error x, .error y =>
      if h : x = y then isTrue (by rw [h]) else isFalse (by simp [h])
    | .ok _, .error _ => isFalse (by simp)
    | .error _, .ok _ => isFalse (by simp)

/-! ### Python `str.splitlines` -/

/-- The line boundary characters of Python `str.splitlines`. -/
def isLineBreak (c : Char) : Bool :=
  c = '\n' || c = '\r' || c = '\x0b' || c = '\x0c' || c = '\x1c' || c = '\x1d'
    || c = '\x1e' || c = '\x85' || c = '\u2028' || c = '\u2029'

/-- `str.splitlines`: splits at every line boundary character (a `"\r\n"`
pair counts as one boundary) and does not produce a trailing empty line for
a trailing boundary (`"a\n" ↦ ["a"]`, `"" ↦ []`, `"\n" ↦ [""]`,
`"a\r\nb" ↦ ["a", "b"]`). -/
def pySplitlines : PyStr → List PyStr
  | [] => []
  | ['\r'] => [[]]
  | '\r' :: '\n' :: cs => [] :: pySplitlines cs
  | '\r' :: c :: cs => [] :: pySplitlines (c :: cs)
  | c :: cs =>
    if isLineBreak c then
      [] :: pySplitlines cs
    else
      match pySplitlines cs with
      | [] => [[c]]
      | l :: ls => (c :: l) :: ls

/-- `"\n".join`, the inverse direction used by `content_from_map` /
`map_to_original_text`. -/
def joinNL : List PyStr → PyStr
  | [] => []
  | [l] => l
  | l :: ls => l ++ '\n' :: joinNL ls

/-! ### Python `str.replace` (replace all non-overlapping occurrences) -/

/-- If `pat` is a prefix of `s`, return the remainder of `s`. -/
def dropStart : PyStr → PyStr → Option PyStr
  | [], s => some s
  | _ :: _, [] => none
  | p :: ps, c :: cs => if p = c then dropStart ps cs else none

/-- Left-to-right, non-overlapping replacement of a non-empty pattern,
the scanning loop of Python `str.replace`.  Structural recursion on a fuel
argument (instantiated with the string length, which bounds the number of
scanning steps, since a successful match consumes at least one character)
keeps the definition kernel-reducible. -/
def replGo (p : Char) (ps rep : PyStr) : Nat → PyStr → PyStr
  | _, [] => []
  | 0, s => s
  | fuel + 1, c :: cs =>
    match dropStart (p :: ps) (c :: cs) with
    | some rest => rep ++ replGo p ps rep fuel rest
    | none => c :: replGo p ps rep fuel cs

/-- Python `s.replace(pat, rep)`: replaces every non-overlapping occurrence,
left to right; an empty pattern inserts `rep` at every position. -/
def replaceAll (pat rep s : PyStr) : PyStr :=
  match pat with
  | [] => rep ++ s.flatMap (fun c => c :: rep)
  | p :: ps => replGo p ps rep s.length s

/-! ### `SortedDict` model: ascending association lists over `Nat` keys -/

/-- Association-list lookup (`d[k]`, as an `Option`). -/
def sdGet {α : Type} : List (Nat × α) → Nat → Option α
  | [], _ => none
  | (k', v) :: rest, k => if k = k' then some v else sdGet rest k

/-- `d[k] = v`: insert or overwrite, keeping keys in ascending order. -/
def sdSet {α : Type} : List (Nat × α) → Nat → α → List (Nat × α)
  | [], k, v => [(k, v)]
  | (k', v') :: rest, k, v =>
    if k < k' then (k, v) :: (k', v') :: rest
    else if k = k' then (k, v) :: rest
    else (k', v') :: sdSet rest k v

/-- `del d[k]` (no effect when the key is absent; callers check presence). -/
def sdErase {α : Type} : List (Nat × α) → Nat → List (Nat × α)
  | [], _ => []
  | (k', v') :: rest, k => if k = k' then rest else (k', v') :: sdErase rest k

/-- The key list of a map, in iteration order. -/
def keysOf {α : Type} (d : List (Nat × α)) : List Nat := d.map Prod.fst

/-- The value list of a map, in iteration order. -/
def valuesOf {α : Type} (d : List (Nat × α)) : List α := d.map Prod.snd

/-- Python `max(d.keys(), default=dflt)` (also `max(d) if d else dflt`). -/
def sdMaxD {α : Type} (d : List (Nat × α)) (dflt : Nat) : Nat :=
  match d with
  | [] => dflt
  | _ => (keysOf d).foldl max 0

/-! ### Addressable document model (text mode)

`StrPatch.build_map`, `build_annotation` and `content_from_map`
(`src/llm_patch_driver/patch/string/string_patch.py`; the same code appears as
`build_map` / `map_to_annotated_text` / `map_to_original_text` in
`driver/annotation_helpers.py` and as `PatchDriver._build_map` /
`_build_annotation` / `_assemble_text` in `driver/driver.py`).

The spaCy sentence segmenter is an external collaborator (spec §1 treats it as
an injectable black box), so every definition is parameterized by
`sentencize : PyStr → List PyStr` returning the ordered sentence texts of one
line. -/

/-- The two-level text map: line number → (sentence number → sentence text). -/
abbrev SMap := List (Nat × List (Nat × PyStr))

/-- `[s.text for s in doc.sents] or [line]`: the fallback used by `build_map`
and the insert-after branch when segmentation yields no sentences. -/
def sentsOf (sentencize : PyStr → List PyStr) (line : PyStr) : List PyStr :=
  match sentencize line with
  | [] => [line]
  | ss => ss

/-- Number a list `1..n` as ascending map entries. -/
def numberFrom1 {α : Type} (xs : List α) : List (Nat × α) := List.enumFrom 1 xs

/-- `StrPatch.build_map`: split into lines, segment each line, number lines and
sentences from 1. -/
def buildMap (sentencize : PyStr → List PyStr) (text : PyStr) : SMap :=
  numberFrom1 ((pySplitlines text).map (fun l => numberFrom1 (sentsOf sentencize l)))

/-- Decimal digits of a line/sentence number, for annotation tags. -/
def natChars (n : Nat) : PyStr := Nat.toDigits 10 n

/-- `StrPatch.build_annotation`: `<tid=L_S>sentence</tid>` per sentence,
newline-joined. -/
def buildAnnot (m : SMap) : PyStr :=
  joinNL ((m.flatMap (fun lp =>
    lp.2.map (fun sp =>
      "<tid=".data ++ natChars lp.1 ++ ['_'] ++ natChars sp.1 ++ ['>'] ++ sp.2
        ++ "</tid>".data))))

/-- `StrPatch.content_from_map`: concatenate the sentences of each line with no
separator and join the lines with `'\n'` (the `original_data` parameter of the
source is unused there, and omitted here). -/
def contentFromMap (m : SMap) : PyStr :=
  joinNL (m.map (fun lp => (lp.2.map Prod.snd).flatten))

/-! ### String patches -/

/-- The closed set of string operations
(`ReplaceOp | DeleteOp | InsertAfterOp`). -/
inductive StrOp where
  | replace (pattern replacement : PyStr)
  | delete
  | insertAfter (text : PyStr)
  deriving DecidableEq, Repr

/-- A `StrPatch` after tid parsing: `_parsed_tids` as `(line, sentence)` pairs.
The pydantic validator `_parse_tids` guarantees the list is non-empty and each
tid matches `<line>_<sentence>`; claims quantify over already-parsed patches. -/
structure StrPatch where
  tids : List (Nat × Nat)
  operation : StrOp
  deriving DecidableEq, Repr

/-- One step of the Python idiom `d[k-1] = d.pop(k)` guarded by `if k in d`
(used ascending to close a gap left by a deletion). -/
def shiftDownStep {α : Type} (acc : List (Nat × α)) (idx : Nat) : List (Nat × α) :=
  match sdGet acc idx with
  | some v => sdSet (sdErase acc idx) (idx - 1) v
  | none => acc

/-- `for sid in sorted([k for k in line_map if k > sent]): line_map[sid-1] =
line_map.pop(sid)` — re-densify the sentence ids of a line after a delete. -/
def shiftGtDown {α : Type} (lm : List (Nat × α)) (sent : Nat) : List (Nat × α) :=
  ((keysOf lm).filter (fun k => sent < k)).foldl shiftDownStep lm

/-- `for idx in range(line+1, max(map.keys(), default=line)+1): if idx in map:
map[idx-1] = map.pop(idx)` — re-densify line numbers after an empty line was
removed (`m` is the map after `del map[line]`). -/
def shiftLinesDown (m : SMap) (line : Nat) : SMap :=
  (List.range' (line + 1) (sdMaxD m line + 1 - (line + 1))).foldl shiftDownStep m

/-- `for idx in range(max_line, anchor_line, -1): map[idx+1] = map[idx]` —
open a slot after the anchor line.  A missing key would raise `KeyError`
(`map[idx]` is a plain subscript), carried with the partially shifted map. -/
def shiftUpFrom (m : SMap) (anchorLine maxLine : Nat) : Except (SMap × PyErr) SMap :=
  go ((List.range' (anchorLine + 1) (maxLine - anchorLine)).reverse) m
where
  go : List Nat → SMap → Except (SMap × PyErr) SMap
    | [], acc => .ok acc
    | idx :: rest, acc =>
      match sdGet acc idx with
      | some v => go rest (sdSet acc (idx + 1) v)
      | none => .error (acc, .keyError)

/-- The replace loop of `StrPatch.apply_patch`: for each tid, look up the
sentence (`KeyError` if absent) and substitute the pattern. -/
def replaceFold (pat rep : PyStr) : List (Nat × Nat) → SMap → Except (SMap × PyErr) SMap
  | [], m => .ok m
  | (line, sent) :: rest, m =>
    match sdGet m line with
    | none => .error (m, .keyError)
    | some lm =>
      match sdGet lm sent with
      | none => .error (m, .keyError)
      | some seg =>
        replaceFold pat rep rest (sdSet m line (sdSet lm sent (replaceAll pat rep seg)))

/-- One tid of the delete loop of `StrPatch.apply_patch`: `del line_map[sent]`,
re-densify the sentence ids, and if the line became empty remove it and
re-densify the line numbers. -/
def deleteOne (m : SMap) (line sent : Nat) : Except (SMap × PyErr) SMap :=
  match sdGet m line with
  | none => .error (m, .keyError)
  | some lm =>
    match sdGet lm sent with
    | none => .error (m, .keyError)
    | some _ =>
      let lm1 := shiftGtDown (sdErase lm sent) sent
      if lm1 = [] then
        let m1 := sdErase (sdSet m line lm1) line
        .ok (shiftLinesDown m1 line)
      else
        .ok (sdSet m line lm1)

/-- The delete loop over `sorted(self._parsed_tids, ..., reverse=True)`. -/
def deleteFold : List (Nat × Nat) → SMap → Except (SMap × PyErr) SMap
  | [], m => .ok m
  | (line, sent) :: rest, m =>
    match deleteOne m line sent with
    | .ok m' => deleteFold rest m'
    | .error e => .error e

/-- Descending lexicographic order of parsed tids, as produced by
`sorted(tids, key=lambda x: (x[0], x[1]), reverse=True)` (ties are impossible:
equal pairs are identical, so stability is irrelevant). -/
def sortTidsDesc (tids : List (Nat × Nat)) : List (Nat × Nat) :=
  (tids.insertionSort (fun a b => a.1 < b.1 ∨ (a.1 = b.1 ∧ a.2 ≤ b.2))).reverse

/-- `StrPatch.apply_patch` restricted to its effect on the lookup map (the
method mutates only `patch_target._lookup_map`). -/
def applyStr (sentencize : PyStr → List PyStr) (p : StrPatch) (m : SMap) :
    Except (SMap × PyErr) SMap :=
  match p.operation with
  | .replace pat rep => replaceFold pat rep p.tids m
  | .delete => deleteFold (sortTidsDesc p.tids) m
  | .insertAfter text =>
    match p.tids.getLast? with
    | none => .error (m, .indexError)
    | some (anchorLine, _) =>
      let maxLine := match m with | [] => 0 | _ => sdMaxD m 0
      match shiftUpFrom m anchorLine maxLine with
      | .error e => .error e
      | .ok m1 => .ok (sdSet m1 (anchorLine + 1) (numberFrom1 (sentsOf sentencize text)))

/-! ### Batch ordering (`PatchDriver._sort_patches` /
`StrPatch.bundle_builder` / `StrPatchBundle.model_post_init`, all textually
identical in the source) -/

/-- `priority = {"replace": 0, "delete": 1, "insert_after": 2}` (the `.get(_,
99)` default is unreachable: the operation union is closed). -/
def priorityOf (p : StrPatch) : Nat :=
  match p.operation with
  | .replace _ _ => 0
  | .delete => 1
  | .insertAfter _ => 2

/-- `_anchor_line`: the line of the last tid for insert-after, otherwise of the
first tid (a validated patch has at least one tid; the defaults are
unreachable). -/
def anchorLineOf (p : StrPatch) : Nat :=
  match p.operation with
  | .insertAfter _ => ((p.tids.getLast?).getD (0, 0)).1
  | _ => ((p.tids.head?).getD (0, 0)).1

/-- The sort key `(priority, -anchor_line)`. -/
def sortKey (p : StrPatch) : Nat × Int := (priorityOf p, -(anchorLineOf p : Int))

/-- The boolean comparison corresponding to `sortKey p ≤ sortKey q`
lexicographically. -/
def patchLE (p q : StrPatch) : Bool :=
  priorityOf p < priorityOf q ||
    (priorityOf p = priorityOf q && anchorLineOf q ≤ anchorLineOf p)

/-- `sorted(patches, key=lambda p: (priority[...], -anchor_line(p)))`: Python
`sorted` is a stable sort by the key; every stable sort of the same list by
the same total preorder computes the same list, so it is embedded as a stable
insertion sort. -/
def sortPatches (patches : List StrPatch) : List StrPatch :=
  patches.insertionSort (fun p q => patchLE p q = true)

/-! ### Validation (`PatchTarget.validate_content`) -/

/-- The validation collaborators of a `PatchTarget`: an optional pydantic
schema check (`schema.model_validate`, returning the `ValidationError` text or
nothing) and an optional user predicate (`validation_condition`; the sync /
async distinction is immaterial to the value returned). -/
structure Validators (α : Type) where
  schema : Option (α → Option PyStr)
  cond : Option (α → Option PyStr)

/-- `PatchTarget.validate_content`: if a schema is configured and fails,
return its error text; otherwise if a predicate is configured return its
result; otherwise `None`. -/
def validateContent {α : Type} (v : Validators α) (c : α) : Option PyStr :=
  match v.schema with
  | some f =>
    match f c with
    | some e => some e
    | none =>
      match v.cond with
      | some g => g c
      | none => none
  | none =>
    match v.cond with
    | some g => g c
    | none => none

/-! ### Patch target state (`PatchTarget`, string mode)

The claims about `apply_patches` / `reset_to_original_state` exercise the
string mode (`content_attribute = None`, content a plain string), so the state
carries the content directly. -/

/-- The mutable state of a string-mode `PatchTarget`: live content, the
pristine backup `_backup_copy`, `_lookup_map`, `_annotated`, `_iteration` and
`current_error`. -/
structure TargetState where
  content : PyStr
  backup : PyStr
  lookupMap : SMap
  annotated : PyStr
  iteration : Nat
  currentError : Option PyStr
  deriving DecidableEq, Repr

/-- `PatchTarget.model_post_init` for a string object: deep-copy the content
into the backup and eagerly build map and annotation. -/
def mkTarget (sentencize : PyStr → List PyStr) (content : PyStr)
    (err : Option PyStr) : TargetState :=
  { content := content
    backup := content
    lookupMap := buildMap sentencize content
    annotated := buildAnnot (buildMap sentencize content)
    iteration := 0
    currentError := err }

/-- The patch loop of `PatchTarget.apply_patches`, threading the in-place
mutated `_lookup_map`; an exception propagates with the map as mutated so
far. -/
def applyLoop (sentencize : PyStr → List PyStr) :
    List StrPatch → SMap → Except (SMap × PyErr) SMap
  | [], m => .ok m
  | p :: rest, m =>
    match applyStr sentencize p m with
    | .ok m' => applyLoop sentencize rest m'
    | .error e => .error e

/-- `PatchTarget.apply_patches`: apply each patch in the given order, then
write `content_from_map` back into the content, bump `_iteration` and rebuild
map and annotation.  A raised exception leaves content, iteration and
annotation untouched but keeps whatever the patch loop already did to the
in-place map. -/
def applyPatches (sentencize : PyStr → List PyStr) (st : TargetState)
    (patches : List StrPatch) : Except (TargetState × PyErr) TargetState :=
  match applyLoop sentencize patches st.lookupMap with
  | .error (m', e) => .error ({ st with lookupMap := m' }, e)
  | .ok m' =>
    let newContent := contentFromMap m'
    .ok { st with
      content := newContent
      iteration := st.iteration + 1
      lookupMap := buildMap sentencize newContent
      annotated := buildAnnot (buildMap sentencize newContent) }

/-- `PatchTarget.reset_to_original_state`: restore the content from the
backup, zero the iteration counter, rebuild map and annotation, re-run
validation. -/
def resetToOriginal (sentencize : PyStr → List PyStr) (v : Validators PyStr)
    (st : TargetState) : TargetState :=
  { content := st.backup
    backup := st.backup
    lookupMap := buildMap sentencize st.backup
    annotated := buildAnnot (buildMap sentencize st.backup)
    iteration := 0
    currentError := validateContent v st.backup }

/-- A caller-side sequence of `apply_patches` calls: a raised exception is
caught and the session continues with the target as the exception left it. -/
def runBatches (sentencize : PyStr → List PyStr) (st : TargetState) :
    List (List StrPatch) → TargetState
  | [] => st
  | b :: bs =>
    match applyPatches sentencize st b with
    | .ok st' => runBatches sentencize st' bs
    | .error (st', _) => runBatches sentencize st' bs

/-! ### The repair loop (`PatchDriver.run_patching_loop`)

The loop's body calls the LLM adapter, executes the returned tool calls
(which may mutate the target through the bound tools) and then re-validates;
the LLM and the tools are external collaborators, so the body's effect on the
target is an arbitrary function `toolEffects`.  The loop control in the
source is exactly `while self._current_error:`; there is no iteration
ceiling, so the embedding runs on fuel and reports `none` when the fuel is
exhausted with the loop still running. -/

/-- Driver-visible loop state: the target, the `state_id` counter and the
length of the message history. -/
structure LoopState where
  target : TargetState
  stateId : Nat
  msgCount : Nat
  deriving DecidableEq, Repr

/-- Python truthiness of the current error: `while self._current_error:`
keeps looping exactly when the error is not `None` and not the empty
string. -/
def errTruthy : Option PyStr → Bool
  | none => false
  | some s => !s.isEmpty

/-- `PatchDriver.run_patching_loop`, fuel-bounded.  The guard is the Python
truthiness test `while self._current_error:`, so the loop also exits when
the stored error is the empty string.  Each iteration appends the error
message and the LLM reply to the history, bumps `state_id`, lets the tool
calls mutate the target, then stores `validate_content()` as the new
current error.  `some st` means the loop exited (error became falsy);
`none` means the fuel ran out with the loop still iterating. -/
def runPatchingLoop (toolEffects : LoopState → LoopState) (v : Validators PyStr) :
    Nat → LoopState → Option PyStr → Option LoopState
  | 0, st, err => if errTruthy err then none else some st
  | fuel + 1, st, err =>
    if errTruthy err then
      let st' := toolEffects { st with stateId := st.stateId + 1, msgCount := st.msgCount + 2 }
      runPatchingLoop toolEffects v fuel st' (validateContent v st'.target.content)
    else
      some st

/-! ### JSON mode identifier map (`build_json_annotation_and_map` in
`driver/annotation_helpers.py`, identical to
`PatchDriver._build_json_annotation_and_map`)

Only the id → JSON-Pointer map thread is embedded; the annotated deep copy
computed alongside it is a display-only rendering (spec §3) whose
construction never feeds back into the map. -/

/-- JSON documents (Python values built by `json` deserialization). -/
inductive Json where
  | str (s : String)
  | num (n : Int)
  | bool (b : Bool)
  | null
  | arr (elems : List Json)
  | obj (fields : List (String × Json))

/-- RFC-6901 token escaping for a key: `~` → `~0` then `/` → `~1`. -/
def escapeToken (s : PyStr) : PyStr :=
  replaceAll "/".data "~1".data (replaceAll "~".data "~0".data s)

/-- `_json_pointer(parent, token)` for a string token (object key). -/
def jsonPointerKey (parent : PyStr) (token : PyStr) : PyStr :=
  if parent = [] then '/' :: escapeToken token else parent ++ '/' :: escapeToken token

/-- `_json_pointer(parent, token)` for an integer token (array index; not
escaped). -/
def jsonPointerIdx (parent : PyStr) (token : Nat) : PyStr :=
  if parent = [] then '/' :: natChars token else parent ++ '/' :: natChars token

mutual
/-- The map thread of `build_json_annotation_and_map` on one value. -/
def jsonGoVal (j : Json) (attrStart : Nat) (path : PyStr)
    (am : List (Nat × PyStr)) : List (Nat × PyStr) :=
  match j with
  | .obj fields => jsonGoFields fields attrStart path am
  | .arr elems => jsonGoElems elems attrStart 1 path am
  | _ => am

/-- The dict branch: assign the running attribute id to each key, recurse into
the value, then continue with `max(keys)+1`. -/
def jsonGoFields (fields : List (String × Json)) (attrIdx : Nat) (path : PyStr)
    (am : List (Nat × PyStr)) : List (Nat × PyStr) :=
  match fields with
  | [] => am
  | (key, value) :: rest =>
    let am1 := sdSet am attrIdx (jsonPointerKey path key.data)
    let am2 := jsonGoVal value (attrIdx + 1) (jsonPointerKey path key.data) am1
    jsonGoFields rest (sdMaxD am2 0 + 1) path am2

/-- The list branch: scalar elements receive only an `<i=N v=…>` marker (no
map entry); composite elements recurse at `max(keys)+1` (or the inherited
start when the map is still empty) rooted at `path/(item_idx-1)`. -/
def jsonGoElems (elems : List Json) (attrStart itemIdx : Nat) (path : PyStr)
    (am : List (Nat × PyStr)) : List (Nat × PyStr) :=
  match elems with
  | [] => am
  | e :: rest =>
    let nextFree := match am with | [] => attrStart | _ => sdMaxD am 0 + 1
    let am' := jsonGoVal e nextFree (jsonPointerIdx path (itemIdx - 1)) am
    jsonGoElems rest attrStart (itemIdx + 1) path am'
end

/-- `build_json_annotation_and_map(data)` restricted to the returned map. -/
def buildJsonMap (j : Json) : List (Nat × PyStr) := jsonGoVal j 1 [] []

/-! ### `PatchTarget` construction (`model_post_init`,
`validate_target_attribute`, `validate_content_type`)

The wrapped object is modelled as a value together with its attribute
dictionary; `content_attribute = None` selects the value itself, otherwise
`getattr`.  Construction runs the eager map/annotation build of
`model_post_init` and the two `mode="after"` model validators; any failure
raises, so pydantic never returns an instance. -/

/-- A Python object handed to `PatchTarget`: its own value (used when
`content_attribute` is `None`) and its attribute dictionary (used
otherwise). -/
structure PyObject where
  value : Json
  attrs : List (String × Json)

/-- `getattr(object, name)` as an `Option`. -/
def getattrOf (o : PyObject) (name : String) : Option Json :=
  (o.attrs.find? (fun kv => kv.1 = name)).map Prod.snd

/-- The active patch architecture class passed as `patch_type`. -/
inductive PatchKind where
  | strPatch
  | jsonPatch
  deriving DecidableEq

/-- The constructor arguments of `PatchTarget` that the construction claims
exercise. -/
structure PTArgs where
  object : PyObject
  patchKind : PatchKind
  contentAttr : Option String
  validators : Validators Json

/-- How construction can fail: `getattr` on a missing attribute raises, the
string map build rejects non-string content, and the `mode="after"` model
validators raise `ValueError` (surfaced by pydantic as a validation
error). -/
inductive ConstructErr where
  | missingAttribute
  | nonStringMapBuild
  | validationError
  deriving DecidableEq

/-- The built identifier map of a target: the text-mode two-level map or the
JSON-mode id→path map (the JSON branch follows
`build_json_annotation_and_map`; the `patch_type.build_map` hook for the JSON
patch class is not present under `src`, its map builder lives in the driver
code embedded above). -/
inductive BuiltMap where
  | textMap (m : SMap)
  | jsonMap (m : List (Nat × PyStr))

/-- A fully constructed general `PatchTarget` (content of either mode). -/
structure PTFull where
  content : Json
  backup : Json
  builtMap : BuiltMap
  iteration : Nat
  currentError : Option PyStr

/-- `patch_type.build_map(content)`: the string class splits lines — a
non-string content has no `splitlines` and raises — while the JSON builder
accepts any document. -/
def buildMapOf (sentencize : PyStr → List PyStr) (k : PatchKind) (c : Json) :
    Except ConstructErr BuiltMap :=
  match k with
  | .strPatch =>
    match c with
    | .str s => .ok (.textMap (buildMap sentencize s.data))
    | _ => .error .nonStringMapBuild
  | .jsonPatch => .ok (.jsonMap (buildJsonMap c))

/-- Whether a content value is a Python `str`. -/
def isStrContent : Json → Bool
  | .str _ => true
  | _ => false

/-- `PatchTarget(...)`: resolve the content (`getattr` raises on a missing
attribute), run `model_post_init` (backup deep copy and eager map build) and
the two model validators; return the initialized target or the first
error. -/
def mkPatchTarget (sentencize : PyStr → List PyStr) (a : PTArgs) :
    Except ConstructErr PTFull :=
  match (match a.contentAttr with
         | none => some a.object.value
         | some attr => getattrOf a.object attr) with
  | none => .error .missingAttribute
  | some c =>
    match buildMapOf sentencize a.patchKind c with
    | .error e => .error e
    | .ok m =>
      -- validate_target_attribute: hasattr already established by the getattr
      -- above; validate_content_type:
      if a.validators.schema.isNone && !isStrContent c then
        .error .validationError
      else
        .ok { content := c, backup := c, builtMap := m, iteration := 0
              currentError := none }

/-! ### Density invariant and proof-side mirrors -/

/-- "Keys are dense integers starting at 1": the key list is exactly
`1, …, length`. -/
def denseKeys {α : Type} (d : List (Nat × α)) : Prop :=
  keysOf d = List.range' 1 d.length

/-- The text-map invariant of the spec: line keys dense from 1 and, within
each line, sentence keys dense from 1. -/
def DenseMap (m : SMap) : Prop :=
  denseKeys m ∧ ∀ lm ∈ valuesOf m, denseKeys lm

instance {α : Type} (d : List (Nat × α)) : Decidable (denseKeys d) := by
  unfold denseKeys; infer_instance

instance (m : SMap) : Decidable (DenseMap m) := by
  unfold DenseMap; infer_instance

/-- The effect of `sdSet` on the key list alone. -/
def insertK (k : Nat) : List Nat → List Nat
  | [] => [k]
  | k' :: rest =>
    if k < k' then k :: k' :: rest
    else if k = k' then k :: rest
    else k' :: insertK k rest

/-- The effect of `sdErase` on the key list alone. -/
def eraseK (k : Nat) : List Nat → List Nat
  | [] => []
  | k' :: rest => if k = k' then rest else k' :: eraseK k rest

/-- The optional-sentencizer instantiation used by concrete examples: every
line is a single sentence, which is exactly how the spaCy sentencizer treats
the one-sentence lines of the examples. -/
def idSent : PyStr → List PyStr := fun l => [l]

/-- The pre-batch target of the atomicity counterexample. -/
def atomSt0 : TargetState := mkTarget idSent "Hello.\nBye.".data none

/-- The counterexample batch: a valid delete of tid `2_1` followed by a patch
whose tid `9_9` is out of range. -/
def atomBatch : List StrPatch :=
  [⟨[(2, 1)], .delete⟩, ⟨[(9, 9)], .replace "x".data "y".data⟩]

/-- The state the failed batch leaves behind: content, annotation, iteration
and backup untouched, but the in-place map has lost line 2. -/
def atomSt1 : TargetState := { atomSt0 with lookupMap := [(1, [(1, "Hello.".data)])] }

/-- The state after a subsequent successful (empty) `apply_patches` call:
the content is reassembled from the corrupted map. -/
def atomSt2 : TargetState :=
  { content := "Hello.".data
    backup := "Hello.\nBye.".data
    lookupMap := buildMap idSent "Hello.".data
    annotated := buildAnnot (buildMap idSent "Hello.".data)
    iteration := 1
    currentError := none }

example : pySplitlines "a\nb".data = ["a".data, "b".data] := by decide
example : pySplitlines "a\n".data = ["a".data] := by decide
example : pySplitlines "\n".data = [[]] := by decide
example : joinNL ["ab".data, "c".data] = "ab\nc".data := by decide
example : replaceAll "Hello".data "Hi".data "Hello world.".data = "Hi world.".data := by
  decide
example : sdSet (sdErase [(1, 10), (2, 20)] 1) 5 50 = [(2, 20), (5, 50)] := by decide

/-! ## Theorems settling the claims -/

/-! ### C9: validation order in `validate_content` -/

/-- C9: `validate_content` runs the schema check first and then the
user-supplied predicate, returns the first non-null error encountered, and
returns null when both pass; with neither configured it always returns
null. -/
theorem C9_validate_content_order {α : Type} (v : Validators α) (c : α) :
    (v.schema = none → v.cond = none → validateContent v c = none) ∧
    (∀ f e, v.schema = some f → f c = some e → validateContent v c = some e) ∧
    (∀ f g, v.schema = some f → f c = none → v.cond = some g →
      validateContent v c = g c) ∧
    (∀ f, v.schema = some f → f c = none → v.cond = none →
      validateContent v c = none) ∧
    (∀ g, v.schema = none → v.cond = some g → validateContent v c = g c) := by
  refine ⟨?_, ?_, ?_, ?_, ?_⟩
  · intro hs hc; simp [validateContent, hs, hc]
  · intro f e hs hf; simp [validateContent, hs, hf]
  · intro f g hs hf hc; simp [validateContent, hs, hf, hc]
  · intro f hs hf hc; simp [validateContent, hs, hf, hc]
  · intro g hs hc; simp [validateContent, hs, hc]

/-- Witness for C9 at concrete validators: a failing schema wins over the
predicate, a passing schema defers to the predicate (whose null result means
valid), and no validators at all means always valid. -/
theorem C9_validate_content_order_witness :
    validateContent (⟨some (fun _ => some ['s']), some (fun _ => some ['c'])⟩ :
      Validators Nat) 0 = some ['s'] ∧
    validateContent (⟨some (fun _ => none), some (fun n => if n = 0 then none
      else some ['c'])⟩ : Validators Nat) 0 = none ∧
    validateContent (⟨none, none⟩ : Validators Nat) 0 = none :=
  ⟨(C9_validate_content_order _ 0).2.1 _ _ rfl rfl,
   (C9_validate_content_order _ 0).2.2.1 _ _ rfl rfl rfl,
   (C9_validate_content_order _ 0).1 rfl rfl⟩

/-! ### C10: construction-time validation of `PatchTarget` -/

/-- C10: resolving the content of a non-string object without a validation
schema fails at construction, a `content_attribute` the object does not
possess fails at construction, and a successfully constructed target is fully
initialized (backup deep-copied from the content, map built eagerly from it,
iteration counter zero). -/
theorem C10_construction_validation (sentencize : PyStr → List PyStr) (a : PTArgs) :
    (∀ c, (match a.contentAttr with
           | none => some a.object.value
           | some attr => getattrOf a.object attr) = some c →
      a.validators.schema = none → isStrContent c = false →
      ∃ e, mkPatchTarget sentencize a = .error e) ∧
    (∀ attr, a.contentAttr = some attr → getattrOf a.object attr = none →
      mkPatchTarget sentencize a = .error .missingAttribute) ∧
    (∀ t, mkPatchTarget sentencize a = .ok t →
      t.backup = t.content ∧ t.iteration = 0 ∧
      buildMapOf sentencize a.patchKind t.content = .ok t.builtMap) := by
  refine ⟨?_, ?_, ?_⟩
  · intro c hc hs hstr
    unfold mkPatchTarget
    rw [hc]
    dsimp only
    cases hb : buildMapOf sentencize a.patchKind c with
    | error e => exact ⟨e, rfl⟩
    | ok m =>
      refine ⟨.validationError, ?_⟩
      simp [hs, hstr]
  · intro attr hattr hget
    unfold mkPatchTarget
    rw [hattr]
    dsimp only
    rw [hget]
  · intro t ht
    unfold mkPatchTarget at ht
    cases hc : (match a.contentAttr with
                | none => some a.object.value
                | some attr => getattrOf a.object attr) with
    | none => rw [hc] at ht; exact absurd ht (by simp)
    | some c =>
      rw [hc] at ht
      dsimp only at ht
      cases hb : buildMapOf sentencize a.patchKind c with
      | error e => rw [hb] at ht; exact absurd ht (by simp)
      | ok m =>
        rw [hb] at ht
        dsimp only at ht
        by_cases hcase : (a.validators.schema.isNone && !isStrContent c) = true
        · rw [if_pos hcase] at ht; exact absurd ht (by simp)
        · rw [if_neg hcase] at ht
          have hrec := Except.ok.inj ht
          subst hrec
          exact ⟨rfl, rfl, hb⟩

/-- Witness for C10: a non-string content without schema is rejected, a
missing attribute is rejected, and a well-formed string target construction
yields a fully initialized target. -/
theorem C10_construction_validation_witness :
    (∃ e, mkPatchTarget idSent
      ⟨⟨.num 3, []⟩, .strPatch, none, ⟨none, none⟩⟩ = .error e) ∧
    mkPatchTarget idSent
      ⟨⟨.str "x", []⟩, .strPatch, some "missing", ⟨none, none⟩⟩ =
        .error .missingAttribute ∧
    (∃ t, mkPatchTarget idSent
        ⟨⟨.str "hi", []⟩, .strPatch, none, ⟨none, none⟩⟩ = .ok t ∧
      t.backup = t.content ∧ t.iteration = 0 ∧
      buildMapOf idSent .strPatch t.content = .ok t.builtMap) := by
  refine ⟨?_, ?_, ?_⟩
  · exact (C10_construction_validation idSent _).1 (.num 3) rfl rfl rfl
  · exact (C10_construction_validation idSent _).2.1 "missing" rfl rfl
  · refine ⟨(⟨.str "hi", .str "hi", .textMap (buildMap idSent "hi".data), 0, none⟩ : PTFull),
      rfl, ?_⟩
    exact (C10_construction_validation idSent
        ⟨⟨.str "hi", []⟩, .strPatch, none, ⟨none, none⟩⟩).2.2
      ⟨.str "hi", .str "hi", .textMap (buildMap idSent "hi".data), 0, none⟩ rfl

/-! ### C1: the repair loop has no cycle ceiling -/

/-- Amended C1: `run_patching_loop` repeats while the current error is
truthy (non-null and non-empty) and consults no iteration counter; with a
validator that always returns a truthy error (and tool calls that do not
raise) the loop never exits within any number of iterations — there is no
`failed` terminal state reached after `max_cycles` iterations, because no
cycle ceiling exists in the loop. -/
theorem C1_loop_never_reaches_terminal_state (toolEffects : LoopState → LoopState)
    (v : Validators PyStr) (hv : ∀ c, errTruthy (validateContent v c) = true) :
    ∀ (fuel : Nat) (st : LoopState) (err : Option PyStr), errTruthy err = true →
      runPatchingLoop toolEffects v fuel st err = none := by
  intro fuel
  induction fuel with
  | zero =>
    intro st err herr
    unfold runPatchingLoop
    rw [if_pos herr]
  | succ n ih =>
    intro st err herr
    unfold runPatchingLoop
    rw [if_pos herr]
    exact ih _ _ (hv _)

/-- Witness for C1's amended statement: a concrete always-failing validator
keeps a concrete loop running for (for instance) seven more iterations. -/
theorem C1_loop_never_reaches_terminal_state_witness :
    runPatchingLoop id ⟨none, some (fun _ => some ['e'])⟩ 7
      ⟨mkTarget idSent ['x'] (some ['e']), 0, 0⟩ (some ['e']) = none :=
  C1_loop_never_reaches_terminal_state id ⟨none, some (fun _ => some ['e'])⟩
    (fun _ => rfl) 7
    ⟨mkTarget idSent ['x'] (some ['e']), 0, 0⟩ (some ['e']) rfl

/-- Counterexample to C1 as stated: with a validator that always fails, the
loop is still running after 60 iterations — more than any plausible
`max_cycles`, and no `failed` state is ever produced; the source has no
`max_cycles` at all. -/
theorem C1_counterexample :
    runPatchingLoop id ⟨none, some (fun _ => some ['e'])⟩ 60
      ⟨mkTarget idSent ['x'] (some ['e']), 0, 0⟩ (some ['e']) = none := by
  decide

/-! ### C2: atomicity of `apply_patches` -/

/-- A failed `apply_patches` call leaves content, annotation, iteration
counter, backup and current error exactly as they were (the content
write-back happens only after every patch applied); only the in-place lookup
map retains the mutations of the patches that ran before the failure. -/
theorem C2_failed_batch_preserves_content (sentencize : PyStr → List PyStr)
    (st st' : TargetState) (ps : List StrPatch) (e : PyErr)
    (h : applyPatches sentencize st ps = .error (st', e)) :
    st'.content = st.content ∧ st'.annotated = st.annotated ∧
    st'.iteration = st.iteration ∧ st'.backup = st.backup ∧
    st'.currentError = st.currentError := by
  unfold applyPatches at h
  cases happ : applyLoop sentencize ps st.lookupMap with
  | error pe =>
    rw [happ] at h
    obtain ⟨m', e'⟩ := pe
    simp only [Except.error.injEq, Prod.mk.injEq] at h
    rw [← h.1]
    exact ⟨rfl, rfl, rfl, rfl, rfl⟩
  | ok m' =>
    rw [happ] at h
    exact absurd h (by simp)

/-- Witness for C2's preserved part at the concrete valid+invalid batch:
the call raises `KeyError` and the content is completely unchanged. -/
theorem C2_failed_batch_preserves_content_witness :
    applyPatches idSent atomSt0 atomBatch = .error (atomSt1, .keyError) ∧
    atomSt1.content = atomSt0.content :=
  ⟨by decide,
   (C2_failed_batch_preserves_content idSent atomSt0 atomSt1 atomBatch .keyError
     (by decide)).1⟩

/-- Counterexample to C2 as stated: the failing batch `[valid delete 2_1,
out-of-range replace 9_9]` does mutate visible state — the lookup map keeps
the delete, and the very next (successful, here empty) `apply_patches` call
commits that mutation into the content, which ends up `"Hello."` instead of
the original `"Hello.\nBye."`. -/
theorem C2_counterexample :
    applyPatches idSent atomSt0 atomBatch = .error (atomSt1, .keyError) ∧
    atomSt1.lookupMap ≠ atomSt0.lookupMap ∧
    applyPatches idSent atomSt1 [] = .ok atomSt2 ∧
    atomSt2.content ≠ atomSt0.content ∧
    atomSt0.content = "Hello.\nBye.".data ∧
    atomSt2.content = "Hello.".data := by
  decide

/-! ### C3: `reset_to_original_state` restores the pristine state -/

/-- `apply_patches` never touches the pristine backup, whether it commits or
raises. -/
theorem applyPatches_preserves_backup (sentencize : PyStr → List PyStr)
    (st : TargetState) (ps : List StrPatch) :
    (∀ st', applyPatches sentencize st ps = .ok st' → st'.backup = st.backup) ∧
    (∀ st' e, applyPatches sentencize st ps = .error (st', e) →
      st'.backup = st.backup) := by
  constructor
  · intro st' h
    unfold applyPatches at h
    cases happ : applyLoop sentencize ps st.lookupMap with
    | error pe => rw [happ] at h; exact absurd h (by simp)
    | ok m' =>
      rw [happ] at h
      simp only [Except.ok.injEq] at h
      rw [← h]
  · intro st' e h
    unfold applyPatches at h
    cases happ : applyLoop sentencize ps st.lookupMap with
    | error pe =>
      rw [happ] at h
      obtain ⟨m', e'⟩ := pe
      simp only [Except.error.injEq, Prod.mk.injEq] at h
      rw [← h.1]
    | ok m' => rw [happ] at h; exact absurd h (by simp)

/-- A whole session of `apply_patches` calls (exceptions caught by the
caller) never touches the backup. -/
theorem runBatches_preserves_backup (sentencize : PyStr → List PyStr)
    (st : TargetState) (bs : List (List StrPatch)) :
    (runBatches sentencize st bs).backup = st.backup := by
  induction bs generalizing st with
  | nil => rfl
  | cons b bs ih =>
    unfold runBatches
    cases h : applyPatches sentencize st b with
    | ok st' =>
      rw [ih st']
      exact (applyPatches_preserves_backup sentencize st b).1 st' h
    | error pe =>
      obtain ⟨st', e⟩ := pe
      rw [ih st']
      exact (applyPatches_preserves_backup sentencize st b).2 st' e h

/-- C3: after any sequence of patch batches, `reset_to_original_state`
restores the pristine content captured at construction, zeroes the iteration
counter, rebuilds map and annotation from the restored content and re-runs
validation to refresh the current error. -/
theorem C3_reset_restores_pristine_state (sentencize : PyStr → List PyStr)
    (v : Validators PyStr) (content : PyStr) (err : Option PyStr)
    (batches : List (List StrPatch)) :
    resetToOriginal sentencize v
        (runBatches sentencize (mkTarget sentencize content err) batches) =
      { content := content
        backup := content
        lookupMap := buildMap sentencize content
        annotated := buildAnnot (buildMap sentencize content)
        iteration := 0
        currentError := validateContent v content } := by
  have hb : (runBatches sentencize (mkTarget sentencize content err) batches).backup
      = content := by
    rw [runBatches_preserves_backup]
    rfl
  unfold resetToOriginal
  rw [hb]

/-! ### C5: batch ordering is the stable sort by `(priority, -anchor_line)` -/

/-- Equal sort keys make `patchLE` hold (reflexivity on ties). -/
theorem patchLE_of_sortKey_eq {p q : StrPatch} (h : sortKey p = sortKey q) :
    patchLE p q = true := by
  unfold sortKey at h
  obtain ⟨h1, h2⟩ := Prod.mk.injEq .. ▸ h
  have h1' : priorityOf p = priorityOf q := by exact_mod_cast h1
  have h2' : anchorLineOf p = anchorLineOf q := by omega
  simp [patchLE, h1', h2']

/-- `patchLE` spells out the lexicographic order on the claim's key
`(priority, -anchor_line)`. -/
theorem patchLE_iff_key_le {p q : StrPatch} :
    patchLE p q = true ↔
      priorityOf p < priorityOf q ∨
        (priorityOf p = priorityOf q ∧
          -(anchorLineOf p : Int) ≤ -(anchorLineOf q : Int)) := by
  simp only [patchLE, Bool.or_eq_true, decide_eq_true_eq, Bool.and_eq_true]
  constructor
  · rintro (h | ⟨h1, h2⟩)
    · exact Or.inl h
    · exact Or.inr ⟨h1, by omega⟩
  · rintro (h | ⟨h1, h2⟩)
    · exact Or.inl h
    · exact Or.inr ⟨h1, by omega⟩

/-- C5: the applied order is the stable sort of the batch by
`(priority, -anchor_line)`: the output is a permutation of the input, it is
sorted by the key, and patches with equal keys keep their original relative
order (the filter at every key value is unchanged). -/
theorem C5_sort_is_stable_sort_by_key (l : List StrPatch) :
    List.Perm (sortPatches l) l ∧
    (sortPatches l).Pairwise
      (fun p q => priorityOf p < priorityOf q ∨
        (priorityOf p = priorityOf q ∧
          -(anchorLineOf p : Int) ≤ -(anchorLineOf q : Int))) ∧
    ∀ k : Nat × Int,
      (sortPatches l).filter (fun q => decide (sortKey q = k)) =
        l.filter (fun q => decide (sortKey q = k)) := by
  haveI htot : IsTotal StrPatch (fun p q => patchLE p q = true) := by
    constructor
    intro p q
    simp only [patchLE, Bool.or_eq_true, decide_eq_true_eq, Bool.and_eq_true]
    omega
  haveI htrans : IsTrans StrPatch (fun p q => patchLE p q = true) := by
    constructor
    intro p q s hpq hqs
    simp only [patchLE, Bool.or_eq_true, decide_eq_true_eq,
      Bool.and_eq_true] at hpq hqs ⊢
    omega
  refine ⟨List.perm_insertionSort _ l, ?_, ?_⟩
  · have hs := List.sorted_insertionSort (fun p q => patchLE p q = true) l
    exact hs.imp (fun h => patchLE_iff_key_le.mp h)
  · intro k
    set pred := fun q => decide (sortKey q = k) with hpred
    have hallk : ∀ x ∈ l.filter pred, sortKey x = k := by
      intro x hx
      have := List.of_mem_filter hx
      simpa [hpred] using this
    have hpw : (l.filter pred).Pairwise (fun p q => patchLE p q = true) := by
      apply List.pairwise_of_forall_mem_list
      intro a ha b hb
      exact patchLE_of_sortKey_eq ((hallk a ha).trans (hallk b hb).symm)
    have hsub : List.Sublist (l.filter pred) (sortPatches l) :=
      List.sublist_insertionSort hpw (List.filter_sublist l)
    have hsub2 : List.Sublist (l.filter pred) ((sortPatches l).filter pred) := by
      have hself : (l.filter pred).filter pred = l.filter pred :=
        List.filter_eq_self.mpr (fun a ha => List.of_mem_filter ha)
      have := hsub.filter pred
      rwa [hself] at this
    have hperm : List.Perm ((sortPatches l).filter pred) (l.filter pred) :=
      (List.perm_insertionSort _ l).filter pred
    exact (hsub2.eq_of_length hperm.length_eq.symm).symm

/-! ### C7: map/reassemble round trip -/

set_option maxHeartbeats 2000000 in
/-- A split never returns zero lines on non-empty input. -/
theorem pySplitlines_ne_nil (c : Char) (cs : PyStr) :
    pySplitlines (c :: cs) ≠ [] := by
  rw [pySplitlines.eq_def]
  split
  · rename_i h; exact absurd h (List.cons_ne_nil c cs)
  · simp
  · simp
  · simp
  · split
    · simp
    · split <;> simp

/-- `pySplitlines` yields lines exactly for non-empty input. -/
theorem pySplitlines_eq_nil {t : PyStr} : pySplitlines t = [] ↔ t = [] := by
  cases t with
  | nil => exact ⟨fun _ => rfl, fun _ => rfl⟩
  | cons c cs =>
    exact ⟨fun h => absurd h (pySplitlines_ne_nil c cs),
      fun h => (List.cons_ne_nil c cs h).elim⟩

/-- Unfolding equation: a `'\n'` head always starts a fresh line. -/
theorem pySplitlines_cons_nl (cs : PyStr) :
    pySplitlines ('\n' :: cs) = [] :: pySplitlines cs := rfl

set_option maxHeartbeats 2000000 in
/-- Unfolding equation: a head that is no line boundary character extends the
first line of the tail's split. -/
theorem pySplitlines_cons_notbreak (c : Char) (cs : PyStr)
    (hb : isLineBreak c = false) :
    pySplitlines (c :: cs) =
      match pySplitlines cs with
      | [] => [[c]]
      | l :: ls => (c :: l) :: ls := by
  have hr : ¬ (c = '\r') := by
    intro h; subst h; simp [isLineBreak] at hb
  have hb' : ¬ (isLineBreak c = true) := by simp [hb]
  rw [pySplitlines.eq_def]
  split
  · rename_i h; exact absurd h (List.cons_ne_nil c cs)
  · rename_i h
    injection h with h1 h2
    exact absurd h1 hr
  · rename_i cs2 h
    injection h with h1 h2
    exact absurd h1 hr
  · rename_i c2 cs2 h
    injection h with h1 h2
    exact absurd h1 hr
  · rename_i c2 cs2 hne1 hne2 hne3 h
    injection h with h1 h2
    subst h1; subst h2
    rw [if_neg hb']

/-- Rejoining the split lines with `'\n'` reconstructs any text that does not
end in a newline and contains no line boundary character other than `'\n'`
(`splitlines` drops a trailing boundary and forgets which boundary character
separated lines; `join` always writes `'\n'`). -/
theorem joinNL_pySplitlines (t : PyStr)
    (hnb : ∀ c ∈ t, isLineBreak c = true → c = '\n')
    (h : t.getLast? ≠ some '\n') :
    joinNL (pySplitlines t) = t := by
  induction t with
  | nil => rfl
  | cons c cs ih =>
    have hnbcs : ∀ c2 ∈ cs, isLineBreak c2 = true → c2 = '\n' :=
      fun c2 hc2 => hnb c2 (List.mem_cons_of_mem c hc2)
    by_cases hc : c = '\n'
    · subst hc
      cases cs with
      | nil => exact absurd rfl h
      | cons d ds =>
        have hlast : (d :: ds).getLast? ≠ some '\n' := by
          rwa [List.getLast?_cons_cons] at h
        have ihcs := ih hnbcs hlast
        have hnn : pySplitlines (d :: ds) ≠ [] := by
          rw [ne_eq, pySplitlines_eq_nil]; simp
        rw [pySplitlines_cons_nl]
        cases hs : pySplitlines (d :: ds) with
        | nil => exact absurd hs hnn
        | cons l ls =>
          rw [hs] at ihcs
          show [] ++ '\n' :: joinNL (l :: ls) = '\n' :: d :: ds
          rw [List.nil_append, ihcs]
    · have hb : isLineBreak c = false := by
        cases hcb : isLineBreak c with
        | false => rfl
        | true => exact absurd (hnb c (List.mem_cons_self c cs) hcb) hc
      cases hs : pySplitlines cs with
      | nil =>
        have hcs : cs = [] := pySplitlines_eq_nil.mp hs
        subst hcs
        rw [pySplitlines_cons_notbreak c [] hb]
        rfl
      | cons l ls =>
        have hcs : cs ≠ [] := by
          intro hcontra
          rw [hcontra] at hs
          exact List.noConfusion (show ([] : List PyStr) = l :: ls from hs)
        have hlast : cs.getLast? ≠ some '\n' := by
          cases cs with
          | nil => exact absurd rfl hcs
          | cons d ds => rwa [List.getLast?_cons_cons] at h
        have ihcs := ih hnbcs hlast
        rw [hs] at ihcs
        have hsplit : pySplitlines (c :: cs) = (c :: l) :: ls := by
          rw [pySplitlines_cons_notbreak c cs hb, hs]
        rw [hsplit]
        cases ls with
        | nil =>
          show c :: l = c :: cs
          rw [show joinNL [l] = l from rfl] at ihcs
          rw [ihcs]
        | cons l2 ls2 =>
          show (c :: l) ++ '\n' :: joinNL (l2 :: ls2) = c :: cs
          rw [List.cons_append]
          rw [show l ++ '\n' :: joinNL (l2 :: ls2) = joinNL (l :: l2 :: ls2) from rfl]
          rw [ihcs]

/-- Amended C7: for every text `t` that does not end in a newline, contains
no line boundary character other than `'\n'` (no `'\r'`, no vertical tab and
so on: `splitlines` would split there too, and the join rewrites every
boundary as `'\n'`), and whose per-line sentence segmentation is an identity
partition (the segments concatenate back to the line), reassembling the
built map reconstructs `t` exactly.  (Otherwise the reconstruction is only
whitespace-equivalent: a trailing newline is dropped and any other boundary
character is rewritten to `'\n'`.) -/
theorem C7_roundtrip_exact (sentencize : PyStr → List PyStr) (t : PyStr)
    (hident : ∀ l ∈ pySplitlines t, (sentsOf sentencize l).flatten = l)
    (hnb : ∀ c ∈ t, isLineBreak c = true → c = '\n')
    (htail : t.getLast? ≠ some '\n') :
    contentFromMap (buildMap sentencize t) = t := by
  unfold contentFromMap buildMap numberFrom1
  rw [show ∀ (xs : List (List (Nat × PyStr))),
      (List.enumFrom 1 xs).map (fun lp => (lp.2.map Prod.snd).flatten) =
        xs.map (fun m => (m.map Prod.snd).flatten) from ?_]
  · rw [List.map_map]
    have hid : ∀ l ∈ pySplitlines t,
        ((fun m => (List.map Prod.snd m).flatten) ∘
          fun l => List.enumFrom 1 (sentsOf sentencize l)) l = id l := by
      intro l hl
      simp only [Function.comp_apply, List.enumFrom_map_snd, id]
      exact hident l hl
    rw [List.map_congr_left hid, List.map_id]
    exact joinNL_pySplitlines t hnb htail
  · intro xs
    rw [show (fun lp : Nat × List (Nat × PyStr) => (lp.2.map Prod.snd).flatten) =
        (fun m : List (Nat × PyStr) => (m.map Prod.snd).flatten) ∘ Prod.snd from rfl]
    rw [← List.map_map, List.enumFrom_map_snd]

/-- Witness for C7's amended statement: the spec's own example text round
trips exactly. -/
theorem C7_roundtrip_exact_witness :
    contentFromMap (buildMap idSent "Hello world.\nThis is a test.".data) =
      "Hello world.\nThis is a test.".data :=
  C7_roundtrip_exact idSent "Hello world.\nThis is a test.".data
    (by decide) (by decide) (by decide)

/-- Counterexample to C7 as stated: `"a\n"` has identity per-line
segmentation (its only line is `"a"`), yet the reassembled text is `"a"`,
not `"a\n"` — `splitlines` drops the trailing newline; and `"a\rb"` splits
at the carriage return into two lines that rejoin as `"a\nb"` — so the round
trip is not exact for every text. -/
theorem C7_counterexample :
    pySplitlines "a\n".data = ["a".data] ∧
    (sentsOf idSent "a".data).flatten = "a".data ∧
    contentFromMap (buildMap idSent "a\n".data) = "a".data ∧
    "a".data ≠ "a\n".data ∧
    pySplitlines "a\rb".data = ["a".data, "b".data] ∧
    contentFromMap (buildMap idSent "a\rb".data) = "a\nb".data ∧
    "a\nb".data ≠ "a\rb".data := by
  decide

/-! ### C4: the end-to-end scenario -/

/-- C4: on `"Hello world.\nThis is a test."`, the single batch
`Replace("Hello"→"Hi") @ 1_1`, `Delete @ 2_1`, `InsertAfter("New line.") @
1_1` — ordered by the bundle sort and applied by `apply_patches` — produces
exactly `"Hi world.\nNew line."`.  The sentencizer is the injectable external
segmenter; the hypotheses pin its (actual spaCy) behavior on the three
one-sentence lines involved. -/
theorem C4_end_to_end (sentencize : PyStr → List PyStr)
    (h1 : sentencize "Hello world.".data = ["Hello world.".data])
    (h2 : sentencize "This is a test.".data = ["This is a test.".data])
    (h3 : sentencize "New line.".data = ["New line.".data]) :
    ∃ st, applyPatches sentencize
        (mkTarget sentencize "Hello world.\nThis is a test.".data none)
        (sortPatches
          [⟨[(1, 1)], .replace "Hello".data "Hi".data⟩,
           ⟨[(2, 1)], .delete⟩,
           ⟨[(1, 1)], .insertAfter "New line.".data⟩]) = .ok st ∧
      st.content = "Hi world.\nNew line.".data := by
  have hsort : sortPatches
      [⟨[(1, 1)], .replace "Hello".data "Hi".data⟩,
       ⟨[(2, 1)], .delete⟩,
       ⟨[(1, 1)], .insertAfter "New line.".data⟩] =
      [⟨[(1, 1)], .replace "Hello".data "Hi".data⟩,
       ⟨[(2, 1)], .delete⟩,
       ⟨[(1, 1)], .insertAfter "New line.".data⟩] := by decide
  have hm0 : buildMap sentencize "Hello world.\nThis is a test.".data
      = [(1, [(1, "Hello world.".data)]), (2, [(1, "This is a test.".data)])] := by
    rw [buildMap, show pySplitlines "Hello world.\nThis is a test.".data
        = ["Hello world.".data, "This is a test.".data] from by decide]
    simp [sentsOf, h1, h2, numberFrom1, List.enumFrom]
  have ha1 : applyStr sentencize ⟨[(1, 1)], .replace "Hello".data "Hi".data⟩
      [(1, [(1, "Hello world.".data)]), (2, [(1, "This is a test.".data)])]
      = .ok [(1, [(1, "Hi world.".data)]), (2, [(1, "This is a test.".data)])] := by
    rw [show applyStr sentencize ⟨[(1, 1)], .replace "Hello".data "Hi".data⟩
        [(1, [(1, "Hello world.".data)]), (2, [(1, "This is a test.".data)])]
        = replaceFold "Hello".data "Hi".data [(1, 1)]
          [(1, [(1, "Hello world.".data)]), (2, [(1, "This is a test.".data)])] from rfl]
    decide
  have ha2 : applyStr sentencize ⟨[(2, 1)], .delete⟩
      [(1, [(1, "Hi world.".data)]), (2, [(1, "This is a test.".data)])]
      = .ok [(1, [(1, "Hi world.".data)])] := by
    rw [show applyStr sentencize ⟨[(2, 1)], .delete⟩
        [(1, [(1, "Hi world.".data)]), (2, [(1, "This is a test.".data)])]
        = deleteFold (sortTidsDesc [(2, 1)])
          [(1, [(1, "Hi world.".data)]), (2, [(1, "This is a test.".data)])] from rfl]
    decide
  have hsents : sentsOf sentencize "New line.".data = ["New line.".data] := by
    rw [sentsOf, h3]
  have ha3 : applyStr sentencize ⟨[(1, 1)], .insertAfter "New line.".data⟩
      [(1, [(1, "Hi world.".data)])]
      = .ok [(1, [(1, "Hi world.".data)]), (2, [(1, "New line.".data)])] := by
    unfold applyStr
    dsimp only
    rw [hsents]
    decide
  have hloop : applyLoop sentencize
      [⟨[(1, 1)], .replace "Hello".data "Hi".data⟩,
       ⟨[(2, 1)], .delete⟩,
       ⟨[(1, 1)], .insertAfter "New line.".data⟩]
      [(1, [(1, "Hello world.".data)]), (2, [(1, "This is a test.".data)])]
      = .ok [(1, [(1, "Hi world.".data)]), (2, [(1, "New line.".data)])] := by
    unfold applyLoop
    rw [ha1]
    unfold applyLoop
    rw [ha2]
    unfold applyLoop
    rw [ha3]
    rfl
  refine ⟨⟨"Hi world.\nNew line.".data, "Hello world.\nThis is a test.".data,
    buildMap sentencize "Hi world.\nNew line.".data,
    buildAnnot (buildMap sentencize "Hi world.\nNew line.".data), 1, none⟩, ?_, rfl⟩
  rw [hsort]
  unfold applyPatches
  rw [show (mkTarget sentencize "Hello world.\nThis is a test.".data none).lookupMap
      = buildMap sentencize "Hello world.\nThis is a test.".data from rfl]
  rw [hm0, hloop]
  dsimp only
  rw [show contentFromMap [(1, [(1, "Hi world.".data)]), (2, [(1, "New line.".data)])]
      = "Hi world.\nNew line.".data from by decide]
  rfl

/-- Witness for C4 with the concrete one-line-one-sentence segmenter. -/
theorem C4_end_to_end_witness :
    ∃ st, applyPatches idSent
        (mkTarget idSent "Hello world.\nThis is a test.".data none)
        (sortPatches
          [⟨[(1, 1)], .replace "Hello".data "Hi".data⟩,
           ⟨[(2, 1)], .delete⟩,
           ⟨[(1, 1)], .insertAfter "New line.".data⟩]) = .ok st ∧
      st.content = "Hi world.\nNew line.".data :=
  C4_end_to_end idSent rfl rfl rfl

/-! ### Key-list toolkit for the density proofs -/

theorem keysOf_sdSet {α : Type} (d : List (Nat × α)) (k : Nat) (v : α) :
    keysOf (sdSet d k v) = insertK k (keysOf d) := by
  induction d with
  | nil => rfl
  | cons kv rest ih =>
    obtain ⟨k', v'⟩ := kv
    show keysOf (if k < k' then (k, v) :: (k', v') :: rest
      else if k = k' then (k, v) :: rest else (k', v') :: sdSet rest k v)
      = insertK k (k' :: keysOf rest)
    by_cases h1 : k < k'
    · simp [h1, keysOf, insertK]
    · by_cases h2 : k = k'
      · simp [h1, h2, keysOf, insertK]
      · simp only [if_neg h1, if_neg h2]
        show k' :: keysOf (sdSet rest k v) = insertK k (k' :: keysOf rest)
        rw [ih]
        simp [insertK, h1, h2]

theorem keysOf_sdErase {α : Type} (d : List (Nat × α)) (k : Nat) :
    keysOf (sdErase d k) = eraseK k (keysOf d) := by
  induction d with
  | nil => rfl
  | cons kv rest ih =>
    obtain ⟨k', v'⟩ := kv
    by_cases h : k = k'
    · simp [sdErase, h, keysOf, eraseK]
    · simp only [sdErase, if_neg h]
      show k' :: keysOf (sdErase rest k) = eraseK k (k' :: keysOf rest)
      rw [ih]
      simp [eraseK, h]

theorem sdGet_some_mem {α : Type} {d : List (Nat × α)} {k : Nat} {v : α}
    (h : sdGet d k = some v) : k ∈ keysOf d ∧ v ∈ valuesOf d := by
  induction d with
  | nil => simp [sdGet] at h
  | cons kv rest ih =>
    obtain ⟨k', v'⟩ := kv
    by_cases hk : k = k'
    · simp only [sdGet, if_pos hk, Option.some.injEq] at h
      subst hk; subst h
      exact ⟨by simp [keysOf], by simp [valuesOf]⟩
    · simp only [sdGet, if_neg hk] at h
      obtain ⟨h1, h2⟩ := ih h
      exact ⟨by simp [keysOf]; right; simpa [keysOf] using h1,
             by simp [valuesOf]; right; simpa [valuesOf] using h2⟩

theorem mem_sdGet_isSome {α : Type} {d : List (Nat × α)} {k : Nat}
    (h : k ∈ keysOf d) : ∃ v, sdGet d k = some v := by
  induction d with
  | nil => simp [keysOf] at h
  | cons kv rest ih =>
    obtain ⟨k', v'⟩ := kv
    by_cases hk : k = k'
    · exact ⟨v', by simp [sdGet, hk]⟩
    · have hmem : k ∈ keysOf rest := by
        simp only [keysOf, List.map_cons, List.mem_cons] at h
        rcases h with h | h
        · exact absurd h hk
        · simpa [keysOf] using h
      obtain ⟨v, hv⟩ := ih hmem
      exact ⟨v, by simpa [sdGet, hk] using hv⟩

theorem mem_range1 {s n m : Nat} : m ∈ List.range' s n ↔ s ≤ m ∧ m < s + n := by
  rw [List.mem_range']
  constructor
  · rintro ⟨i, hi, rfl⟩; omega
  · intro ⟨h1, h2⟩; exact ⟨m - s, by omega, by omega⟩

theorem insertK_append_lt {l r : List Nat} {k : Nat} (h : ∀ x ∈ l, x < k) :
    insertK k (l ++ r) = l ++ insertK k r := by
  induction l with
  | nil => rfl
  | cons x xs ih =>
    have hx := h x (by simp)
    show insertK k (x :: (xs ++ r)) = x :: (xs ++ insertK k r)
    simp only [insertK, if_neg (by omega : ¬ k < x), if_neg (by omega : ¬ k = x)]
    rw [ih (fun y hy => h y (by simp [hy]))]

theorem insertK_lt_head {l : List Nat} {k : Nat} (h : ∀ x ∈ l, k < x) :
    insertK k l = k :: l := by
  cases l with
  | nil => rfl
  | cons x xs => simp [insertK, h x (by simp)]

theorem eraseK_append_not_mem {l r : List Nat} {k : Nat} (h : k ∉ l) :
    eraseK k (l ++ r) = l ++ eraseK k r := by
  induction l with
  | nil => rfl
  | cons x xs ih =>
    have hx : k ≠ x := fun hc => h (by simp [hc])
    show eraseK k (x :: (xs ++ r)) = x :: (xs ++ eraseK k r)
    simp only [eraseK, if_neg hx]
    rw [ih (fun hc => h (by simp [hc]))]

theorem foldl_max_range'_of_le : ∀ (c s a : Nat), a ≤ s → 0 < c →
    List.foldl max a (List.range' s c) = s + c - 1 := by
  intro c
  induction c with
  | zero => intro s a _ h; omega
  | succ n ih =>
    intro s a ha _
    rw [List.range'_succ, List.foldl_cons, Nat.max_eq_right ha]
    cases n with
    | zero => simp
    | succ m =>
      rw [ih (s + 1) s (by omega) (by omega)]
      omega

theorem shiftFold_keys {α : Type} : ∀ (cnt t : Nat) (m : List (Nat × α)),
    keysOf m = List.range' 1 t ++ List.range' (t + 2) cnt →
    keysOf ((List.range' (t + 2) cnt).foldl shiftDownStep m) =
      List.range' 1 (t + cnt) := by
  intro cnt
  induction cnt with
  | zero =>
    intro t m hm
    simpa using hm
  | succ c ih =>
    intro t m hm
    rw [List.range'_succ, List.foldl_cons]
    have hmem : (t + 2) ∈ keysOf m := by
      rw [hm]
      refine List.mem_append_right _ ?_
      exact mem_range1.mpr ⟨Nat.le_refl _, by omega⟩
    obtain ⟨v, hv⟩ := mem_sdGet_isSome hmem
    have hstep : shiftDownStep m (t + 2) = sdSet (sdErase m (t + 2)) (t + 1) v := by
      unfold shiftDownStep
      rw [hv]
      rfl
    rw [hstep]
    have hkeys : keysOf (sdSet (sdErase m (t + 2)) (t + 1) v) =
        List.range' 1 (t + 1) ++ List.range' ((t + 1) + 2) c := by
      rw [keysOf_sdSet, keysOf_sdErase, hm]
      rw [eraseK_append_not_mem (by
        intro hc
        have := mem_range1.mp hc
        omega)]
      rw [List.range'_succ]
      rw [show eraseK (t + 2) ((t + 2) :: List.range' (t + 3) c)
          = List.range' (t + 3) c from by simp [eraseK]]
      rw [insertK_append_lt (fun x hx => by
        have := mem_range1.mp hx
        omega)]
      rw [insertK_lt_head (fun x hx => by
        have := mem_range1.mp hx
        omega)]
      rw [show List.range' 1 t ++ (t + 1) :: List.range' (t + 3) c
          = (List.range' 1 t ++ [t + 1]) ++ List.range' (t + 3) c from by simp]
      rw [show List.range' 1 t ++ [t + 1] = List.range' 1 (t + 1) from by
        rw [List.range'_1_concat]
        simp [Nat.add_comm]]
    have hih := ih (t + 1) _ hkeys
    rw [show t + (c + 1) = (t + 1) + c from by omega]
    exact hih

theorem keysOf_eq_nil {α : Type} {d : List (Nat × α)} : keysOf d = [] ↔ d = [] := by
  cases d <;> simp [keysOf]

theorem denseKeys_of_range {α : Type} {d : List (Nat × α)} {n : Nat}
    (h : keysOf d = List.range' 1 n) : denseKeys d := by
  have hlen : d.length = n := by
    have := congrArg List.length h
    simpa [keysOf] using this
  rw [denseKeys, h, hlen]

theorem valuesOf_sdSet_subset {α : Type} {d : List (Nat × α)} {k : Nat} {v w : α}
    (h : w ∈ valuesOf (sdSet d k v)) : w = v ∨ w ∈ valuesOf d := by
  induction d with
  | nil => simp [sdSet, valuesOf] at h; exact Or.inl h
  | cons kv rest ih =>
    obtain ⟨k', v'⟩ := kv
    simp only [sdSet] at h
    split_ifs at h with h1 h2
    · simp only [valuesOf, List.map_cons, List.mem_cons] at h ⊢
      tauto
    · simp only [valuesOf, List.map_cons, List.mem_cons] at h ⊢
      tauto
    · simp only [valuesOf, List.map_cons, List.mem_cons] at h ⊢
      rcases h with h | h
      · tauto
      · rcases ih (by simpa [valuesOf] using h) with h | h <;> tauto

theorem valuesOf_sdErase_subset {α : Type} {d : List (Nat × α)} {k : Nat} {w : α}
    (h : w ∈ valuesOf (sdErase d k)) : w ∈ valuesOf d := by
  induction d with
  | nil => simpa [sdErase] using h
  | cons kv rest ih =>
    obtain ⟨k', v'⟩ := kv
    simp only [sdErase] at h
    split_ifs at h with h1
    · simp only [valuesOf, List.map_cons, List.mem_cons]
      tauto
    · simp only [valuesOf, List.map_cons, List.mem_cons] at h ⊢
      rcases h with h | h
      · tauto
      · exact Or.inr (ih (by simpa [valuesOf] using h))

theorem valuesOf_shiftDownStep_subset {α : Type} {d : List (Nat × α)} {idx : Nat}
    {w : α} (h : w ∈ valuesOf (shiftDownStep d idx)) : w ∈ valuesOf d := by
  unfold shiftDownStep at h
  cases hv : sdGet d idx with
  | none => rw [hv] at h; exact h
  | some v =>
    rw [hv] at h
    rcases valuesOf_sdSet_subset h with h | h
    · exact h ▸ (sdGet_some_mem hv).2
    · exact valuesOf_sdErase_subset h

theorem valuesOf_foldl_shiftDownStep_subset {α : Type} :
    ∀ (ks : List Nat) (d : List (Nat × α)) (w : α),
    w ∈ valuesOf (ks.foldl shiftDownStep d) → w ∈ valuesOf d := by
  intro ks
  induction ks with
  | nil => intro d w h; exact h
  | cons k rest ih =>
    intro d w h
    rw [List.foldl_cons] at h
    exact valuesOf_shiftDownStep_subset (ih _ _ h)

theorem insertK_range'_mem : ∀ (c s k : Nat), s ≤ k → k < s + c →
    insertK k (List.range' s c) = List.range' s c := by
  intro c
  induction c with
  | zero => intro s k h1 h2; omega
  | succ n ih =>
    intro s k h1 h2
    rw [List.range'_succ]
    by_cases hk : k = s
    · simp [insertK, hk]
    · rw [show insertK k (s :: List.range' (s + 1) n)
          = s :: insertK k (List.range' (s + 1) n) from by
        simp [insertK, if_neg (by omega : ¬ k < s), if_neg hk]]
      rw [ih (s + 1) k (by omega) (by omega)]

theorem insertK_range'_max (n : Nat) :
    insertK (n + 1) (List.range' 1 n) = List.range' 1 (n + 1) := by
  have h := insertK_append_lt (l := List.range' 1 n) (r := [])
    (k := n + 1) (fun x hx => by
      have := mem_range1.mp hx
      omega)
  rw [List.append_nil] at h
  rw [h]
  show List.range' 1 n ++ [n + 1] = List.range' 1 (n + 1)
  rw [List.range'_1_concat, Nat.add_comm]

theorem eraseK_range' : ∀ (c s k : Nat), s ≤ k → k < s + c →
    eraseK k (List.range' s c) =
      List.range' s (k - s) ++ List.range' (k + 1) (s + c - (k + 1)) := by
  intro c
  induction c with
  | zero => intro s k h1 h2; omega
  | succ n ih =>
    intro s k h1 h2
    rw [List.range'_succ]
    by_cases hk : k = s
    · subst hk
      rw [show k - k = 0 from by omega]
      rw [show List.range' k 0 = [] from rfl, List.nil_append]
      rw [show k + (n + 1) - (k + 1) = n from by omega]
      simp [eraseK]
    · obtain ⟨d, hd⟩ : ∃ d, k - s = d + 1 := ⟨k - s - 1, by omega⟩
      rw [show eraseK k (s :: List.range' (s + 1) n)
          = s :: eraseK k (List.range' (s + 1) n) from by
        simp [eraseK, fun h => hk h]]
      rw [ih (s + 1) k (by omega) (by omega)]
      rw [hd, List.range'_succ, List.cons_append]
      rw [show k - (s + 1) = d from by omega]
      rw [show s + (n + 1) - (k + 1) = s + 1 + n - (k + 1) from by omega]

theorem range'_reverse_succ (s c : Nat) :
    (List.range' s (c + 1)).reverse = (s + c) :: (List.range' s c).reverse := by
  rw [List.range'_1_concat, List.reverse_append]
  simp

theorem sdMaxD_ne_nil {α : Type} {d : List (Nat × α)} (h : d ≠ []) (dflt : Nat) :
    sdMaxD d dflt = (keysOf d).foldl max 0 := by
  cases d with
  | nil => exact absurd rfl h
  | cons kv rest => rfl

theorem foldl_max_range1_le (c : Nat) :
    List.foldl max 0 (List.range' 1 c) ≤ c + 1 := by
  cases c with
  | zero => simp
  | succ n =>
    rw [foldl_max_range'_of_le (n + 1) 1 0 (by omega) (by omega)]
    omega

theorem shiftGtDown_keys {α : Type} (lm : List (Nat × α)) (sent ns : Nat)
    (h1 : 1 ≤ sent) (h2 : sent ≤ ns)
    (hk : keysOf lm = List.range' 1 ns) :
    keysOf (shiftGtDown (sdErase lm sent) sent) = List.range' 1 (ns - 1) := by
  have hkerase : keysOf (sdErase lm sent) =
      List.range' 1 (sent - 1) ++ List.range' (sent + 1) (ns - sent) := by
    rw [keysOf_sdErase, hk, eraseK_range' ns 1 sent h1 (by omega)]
    rw [show sent - 1 = sent - 1 from rfl]
    rw [show 1 + ns - (sent + 1) = ns - sent from by omega]
  have hfilter : (keysOf (sdErase lm sent)).filter (fun k => decide (sent < k)) =
      List.range' (sent + 1) (ns - sent) := by
    rw [hkerase, List.filter_append]
    rw [List.filter_eq_nil_iff.mpr (fun x hx => by
      have := mem_range1.mp hx
      simp only [decide_eq_true_eq]
      omega)]
    rw [List.filter_eq_self.mpr (fun x hx => by
      have := mem_range1.mp hx
      simp only [decide_eq_true_eq]
      omega)]
    rw [List.nil_append]
  unfold shiftGtDown
  rw [hfilter]
  have hmain := shiftFold_keys (ns - sent) (sent - 1) (sdErase lm sent) (by
    rw [hkerase]
    congr 2
    omega)
  rw [show List.range' (sent + 1) (ns - sent)
      = List.range' ((sent - 1) + 2) (ns - sent) from by congr 1; omega]
  rw [hmain]
  congr 1
  omega

theorem shiftLinesDown_dense (m1 : SMap) (line N : Nat)
    (h1 : 1 ≤ line) (h2 : line ≤ N)
    (hk : keysOf m1 = List.range' 1 (line - 1) ++ List.range' (line + 1) (N - line)) :
    keysOf (shiftLinesDown m1 line) = List.range' 1 (N - 1) ∧
    ∀ v ∈ valuesOf (shiftLinesDown m1 line), v ∈ valuesOf m1 := by
  constructor
  case right =>
    intro v hv
    exact valuesOf_foldl_shiftDownStep_subset _ _ _ hv
  case left =>
    by_cases hNl : line = N
    · subst hNl
      have hk' : keysOf m1 = List.range' 1 (line - 1) := by
        rw [hk]
        rw [show line - line = 0 from by omega]
        simp
      have hcount : sdMaxD m1 line + 1 - (line + 1) = 0 := by
        by_cases hm1 : m1 = []
        · subst hm1; simp [sdMaxD]
        · rw [sdMaxD_ne_nil hm1]
          have hne : line - 1 ≠ 0 := by
            intro hc
            rw [hc] at hk'
            exact hm1 (keysOf_eq_nil.mp (by simpa using hk'))
          rw [hk', foldl_max_range'_of_le (line - 1) 1 0 (by omega) (by omega)]
          omega
      unfold shiftLinesDown
      rw [hcount]
      simpa using hk'
    · have hlt : line < N := by omega
      have hm1ne : m1 ≠ [] := by
        intro hc
        rw [hc] at hk
        simp only [keysOf, List.map_nil] at hk
        have hnil := hk.symm
        rw [List.append_eq_nil] at hnil
        have h0 : N - line = 0 := by
          have := hnil.2
          rwa [List.range'_eq_nil] at this
        omega
      have hmax : sdMaxD m1 line = N := by
        rw [sdMaxD_ne_nil hm1ne, hk, List.foldl_append]
        have hinner : List.foldl max 0 (List.range' 1 (line - 1)) ≤ line + 1 :=
          le_trans (foldl_max_range1_le (line - 1)) (by omega)
        rw [foldl_max_range'_of_le (N - line) (line + 1) _ hinner (by omega)]
        omega
      unfold shiftLinesDown
      rw [hmax]
      rw [show N + 1 - (line + 1) = N - line from by omega]
      have hmain := shiftFold_keys (N - line) (line - 1) m1 (by
        rw [hk]
        congr 2
        omega)
      rw [show List.range' (line + 1) (N - line)
          = List.range' ((line - 1) + 2) (N - line) from by congr 1; omega]
      rw [hmain]
      congr 1
      omega

theorem denseKeys_nil {α : Type} : denseKeys ([] : List (Nat × α)) := by
  rfl

theorem deleteOne_dense {m m' : SMap} {line sent : Nat}
    (hd : DenseMap m) (h : deleteOne m line sent = .ok m') : DenseMap m' := by
  obtain ⟨hdk, hdv⟩ := hd
  unfold deleteOne at h
  cases hline : sdGet m line with
  | none => rw [hline] at h; exact absurd h (by simp)
  | some lm =>
    rw [hline] at h
    dsimp only at h
    cases hsent : sdGet lm sent with
    | none => rw [hsent] at h; exact absurd h (by simp)
    | some seg =>
      rw [hsent] at h
      obtain ⟨hlinemem, hlmval⟩ := sdGet_some_mem hline
      obtain ⟨hsentmem, _⟩ := sdGet_some_mem hsent
      have hdk' : keysOf m = List.range' 1 m.length := hdk
      have hlmdense : keysOf lm = List.range' 1 lm.length := hdv lm hlmval
      have hlineb := mem_range1.mp (hdk' ▸ hlinemem)
      have hsentb := mem_range1.mp (hlmdense ▸ hsentmem)
      have hlm1keys := shiftGtDown_keys lm sent lm.length
        (by omega) (by omega) hlmdense
      dsimp only at h
      by_cases hnil : shiftGtDown (sdErase lm sent) sent = []
      · rw [if_pos hnil] at h
        have hm' : m' = shiftLinesDown (sdErase
            (sdSet m line (shiftGtDown (sdErase lm sent) sent)) line) line :=
          (Except.ok.inj h).symm
        have hsetkeys : keysOf (sdSet m line
            (shiftGtDown (sdErase lm sent) sent)) = List.range' 1 m.length := by
          rw [keysOf_sdSet, hdk', insertK_range'_mem m.length 1 line (by omega)
            (by omega)]
        have herasekeys : keysOf (sdErase
            (sdSet m line (shiftGtDown (sdErase lm sent) sent)) line) =
            List.range' 1 (line - 1) ++ List.range' (line + 1) (m.length - line) := by
          rw [keysOf_sdErase, hsetkeys, eraseK_range' m.length 1 line (by omega)
            (by omega)]
          rw [show 1 + m.length - (line + 1) = m.length - line from by omega]
        obtain ⟨hkeys, hvals⟩ := shiftLinesDown_dense _ line m.length
          (by omega) (by omega) herasekeys
        constructor
        · rw [hm']
          exact denseKeys_of_range hkeys
        · intro v hv
          rw [hm'] at hv
          have hv2 := valuesOf_sdErase_subset (hvals v hv)
          rcases valuesOf_sdSet_subset hv2 with hv3 | hv3
          · rw [hv3, hnil]
            exact denseKeys_nil
          · exact hdv v hv3
      · rw [if_neg hnil] at h
        have hm' : m' = sdSet m line (shiftGtDown (sdErase lm sent) sent) :=
          (Except.ok.inj h).symm
        constructor
        · rw [hm']
          refine denseKeys_of_range (n := m.length) ?_
          rw [keysOf_sdSet, hdk', insertK_range'_mem m.length 1 line (by omega)
            (by omega)]
        · intro v hv
          rw [hm'] at hv
          rcases valuesOf_sdSet_subset hv with hv2 | hv2
          · rw [hv2]
            exact denseKeys_of_range hlm1keys
          · exact hdv v hv2

theorem deleteFold_dense : ∀ (tids : List (Nat × Nat)) (m m' : SMap),
    DenseMap m → deleteFold tids m = .ok m' → DenseMap m' := by
  intro tids
  induction tids with
  | nil =>
    intro m m' hd h
    simp only [deleteFold] at h
    exact (Except.ok.inj h) ▸ hd
  | cons p rest ih =>
    intro m m' hd h
    obtain ⟨line, sent⟩ := p
    simp only [deleteFold] at h
    cases hone : deleteOne m line sent with
    | error e => rw [hone] at h; exact absurd h (by simp)
    | ok m2 =>
      rw [hone] at h
      exact ih m2 m' (deleteOne_dense hd hone) h

theorem replaceFold_dense : ∀ (tids : List (Nat × Nat)) (m m' : SMap)
    (pat rep : PyStr), DenseMap m → replaceFold pat rep tids m = .ok m' →
    DenseMap m' := by
  intro tids
  induction tids with
  | nil =>
    intro m m' pat rep hd h
    simp only [replaceFold] at h
    exact (Except.ok.inj h) ▸ hd
  | cons p rest ih =>
    intro m m' pat rep hd h
    obtain ⟨line, sent⟩ := p
    obtain ⟨hdk, hdv⟩ := hd
    simp only [replaceFold] at h
    cases hline : sdGet m line with
    | none => rw [hline] at h; exact absurd h (by simp)
    | some lm =>
      rw [hline] at h
      dsimp only at h
      cases hsent : sdGet lm sent with
      | none => rw [hsent] at h; exact absurd h (by simp)
      | some seg =>
        rw [hsent] at h
        obtain ⟨hlinemem, hlmval⟩ := sdGet_some_mem hline
        obtain ⟨hsentmem, _⟩ := sdGet_some_mem hsent
        have hdk' : keysOf m = List.range' 1 m.length := hdk
        have hlmdense : keysOf lm = List.range' 1 lm.length := hdv lm hlmval
        have hlineb := mem_range1.mp (hdk' ▸ hlinemem)
        have hsentb := mem_range1.mp (hlmdense ▸ hsentmem)
        refine ih _ m' pat rep ⟨?_, ?_⟩ h
        · refine denseKeys_of_range (n := m.length) ?_
          rw [keysOf_sdSet, hdk', insertK_range'_mem m.length 1 line (by omega)
            (by omega)]
        · intro v hv
          rcases valuesOf_sdSet_subset hv with hv2 | hv2
          · refine hv2 ▸ denseKeys_of_range (n := lm.length) ?_
            rw [keysOf_sdSet, hlmdense, insertK_range'_mem lm.length 1 sent
              (by omega) (by omega)]
          · exact hdv v hv2

theorem shiftUpFromGo_keys : ∀ (cnt a M : Nat) (m : SMap),
    keysOf m = List.range' 1 M → a + cnt < M →
    ∃ m2, shiftUpFrom.go ((List.range' (a + 1) cnt).reverse) m = .ok m2 ∧
      keysOf m2 = List.range' 1 M ∧
      ∀ v ∈ valuesOf m2, v ∈ valuesOf m := by
  intro cnt
  induction cnt with
  | zero =>
    intro a M m hk hb
    exact ⟨m, rfl, hk, fun v hv => hv⟩
  | succ c ih =>
    intro a M m hk hb
    rw [range'_reverse_succ]
    have hmem : (a + 1 + c) ∈ keysOf m := by
      rw [hk]
      exact mem_range1.mpr ⟨by omega, by omega⟩
    obtain ⟨v, hv⟩ := mem_sdGet_isSome hmem
    have hstep : shiftUpFrom.go ((a + 1 + c) :: (List.range' (a + 1) c).reverse) m
        = shiftUpFrom.go ((List.range' (a + 1) c).reverse)
          (sdSet m (a + 1 + c + 1) v) := by
      conv_lhs => rw [shiftUpFrom.go]
      rw [hv]
    rw [hstep]
    have hsetkeys : keysOf (sdSet m (a + 1 + c + 1) v) = List.range' 1 M := by
      rw [keysOf_sdSet, hk, insertK_range'_mem M 1 (a + 1 + c + 1) (by omega)
        (by omega)]
    obtain ⟨m2, hgo, hk2, hv2⟩ := ih a M (sdSet m (a + 1 + c + 1) v) hsetkeys
      (by omega)
    refine ⟨m2, hgo, hk2, fun w hw => ?_⟩
    rcases valuesOf_sdSet_subset (hv2 w hw) with hw2 | hw2
    · exact hw2 ▸ (sdGet_some_mem hv).2
    · exact hw2

theorem denseKeys_numberFrom1 {α : Type} (xs : List α) :
    denseKeys (numberFrom1 xs) := by
  refine denseKeys_of_range (n := xs.length) ?_
  rw [numberFrom1, keysOf, List.enumFrom_map_fst]

theorem insertAfter_dense (sentencize : PyStr → List PyStr) (tids : List (Nat × Nat))
    (text : PyStr) (m m' : SMap) (hd : DenseMap m)
    (hanchor : ((tids.getLast?).getD (0, 0)).1 ∈ keysOf m)
    (h : applyStr sentencize ⟨tids, .insertAfter text⟩ m = .ok m') : DenseMap m' := by
  obtain ⟨hdk, hdv⟩ := hd
  have hdk' : keysOf m = List.range' 1 m.length := hdk
  unfold applyStr at h
  dsimp only at h
  cases hl : tids.getLast? with
  | none => rw [hl] at h; exact absurd h (by simp)
  | some ap =>
    obtain ⟨anchor, s2⟩ := ap
    rw [hl] at h
    dsimp only at h
    rw [hl] at hanchor
    simp only [Option.getD_some] at hanchor
    cases m with
    | nil => simp [keysOf] at hanchor
    | cons kv0 rest0 =>
      dsimp only at h
      have hab := mem_range1.mp (hdk' ▸ hanchor)
      have hN1 : 1 ≤ (kv0 :: rest0).length := by simp
      have hmax : sdMaxD (kv0 :: rest0) 0 = (kv0 :: rest0).length := by
        rw [show sdMaxD (kv0 :: rest0) 0
            = (keysOf (kv0 :: rest0)).foldl max 0 from rfl, hdk',
          foldl_max_range'_of_le (kv0 :: rest0).length 1 0 (by omega) (by omega)]
        omega
      rw [hmax] at h
      by_cases hae : anchor = (kv0 :: rest0).length
      · have hcount : (kv0 :: rest0).length - anchor = 0 := by omega
        unfold shiftUpFrom at h
        rw [hcount] at h
        simp only [List.range'_zero, List.reverse_nil] at h
        rw [show shiftUpFrom.go [] (kv0 :: rest0) = .ok (kv0 :: rest0) from rfl] at h
        have hm' : m' = sdSet (kv0 :: rest0) (anchor + 1)
            (numberFrom1 (sentsOf sentencize text)) := (Except.ok.inj h).symm
        constructor
        · rw [hm', hae]
          refine denseKeys_of_range (n := (kv0 :: rest0).length + 1) ?_
          rw [keysOf_sdSet, hdk', insertK_range'_max]
        · intro v hv
          rw [hm'] at hv
          rcases valuesOf_sdSet_subset hv with hv2 | hv2
          · exact hv2 ▸ denseKeys_numberFrom1 _
          · exact hdv v hv2
      · obtain ⟨c, hc⟩ : ∃ c, (kv0 :: rest0).length - anchor = c + 1 :=
          ⟨(kv0 :: rest0).length - anchor - 1, by omega⟩
        unfold shiftUpFrom at h
        rw [hc, range'_reverse_succ] at h
        rw [show anchor + 1 + c = (kv0 :: rest0).length from by omega] at h
        have hmem : (kv0 :: rest0).length ∈ keysOf (kv0 :: rest0) := by
          rw [hdk']
          exact mem_range1.mpr ⟨by omega, by omega⟩
        obtain ⟨v, hv⟩ := mem_sdGet_isSome hmem
        rw [show shiftUpFrom.go
            ((kv0 :: rest0).length :: (List.range' (anchor + 1) c).reverse)
              (kv0 :: rest0)
            = shiftUpFrom.go ((List.range' (anchor + 1) c).reverse)
              (sdSet (kv0 :: rest0) ((kv0 :: rest0).length + 1) v) from by
          conv_lhs => rw [shiftUpFrom.go]
          rw [hv]] at h
        have hsetkeys : keysOf (sdSet (kv0 :: rest0) ((kv0 :: rest0).length + 1) v)
            = List.range' 1 ((kv0 :: rest0).length + 1) := by
          rw [keysOf_sdSet, hdk', insertK_range'_max]
        obtain ⟨m2, hgo, hk2, hv2⟩ := shiftUpFromGo_keys c anchor
          ((kv0 :: rest0).length + 1)
          (sdSet (kv0 :: rest0) ((kv0 :: rest0).length + 1) v) hsetkeys (by omega)
        rw [hgo] at h
        have hm' : m' = sdSet m2 (anchor + 1)
            (numberFrom1 (sentsOf sentencize text)) := (Except.ok.inj h).symm
        constructor
        · rw [hm']
          refine denseKeys_of_range (n := (kv0 :: rest0).length + 1) ?_
          rw [keysOf_sdSet, hk2, insertK_range'_mem ((kv0 :: rest0).length + 1) 1
            (anchor + 1) (by omega) (by omega)]
        · intro w hw
          rw [hm'] at hw
          rcases valuesOf_sdSet_subset hw with hw2 | hw2
          · exact hw2 ▸ denseKeys_numberFrom1 _
          · rcases valuesOf_sdSet_subset (hv2 w hw2) with hw3 | hw3
            · exact hw3 ▸ hdv v (sdGet_some_mem hv).2
            · exact hdv w hw3

/-- Density preservation for one applied string patch: a patch that applies
successfully (no `KeyError`) on a dense map — with an existing anchor line in
the insert-after case, which the bundle validators guarantee — leaves the map
dense. -/
theorem applyStr_dense (sentencize : PyStr → List PyStr) (p : StrPatch)
    (m m' : SMap) (hd : DenseMap m)
    (hins : ∀ text, p.operation = .insertAfter text →
      ((p.tids.getLast?).getD (0, 0)).1 ∈ keysOf m)
    (h : applyStr sentencize p m = .ok m') : DenseMap m' := by
  obtain ⟨tids, op⟩ := p
  cases op with
  | replace pat rep =>
    exact replaceFold_dense tids m m' pat rep hd h
  | delete =>
    exact deleteFold_dense (sortTidsDesc tids) m m' hd h
  | insertAfter text =>
    exact insertAfter_dense sentencize tids text m m' hd (hins text rfl) h

/-! ### C6: density of the text-mode identifier map -/

/-- C6: the text-mode identifier map stays dense — line keys contiguous from
1, sentence keys contiguous from 1 within each remaining line — after every
successful patch application (for an insert-after patch the anchor line must
resolve in the current map, which is exactly what the bundle validators
check before application); in particular deleting sentence `1_1` from
`{1: {1: "Hello world.", 2: "Bye."}}` leaves the line's sentence map
`{1: "Bye."}`, never `{2: "Bye."}`. -/
theorem C6_map_density_invariant (sentencize : PyStr → List PyStr) (p : StrPatch)
    (m m' : SMap) (hd : DenseMap m)
    (hins : ∀ text, p.operation = .insertAfter text →
      ((p.tids.getLast?).getD (0, 0)).1 ∈ keysOf m)
    (h : applyStr sentencize p m = .ok m') :
    DenseMap m' ∧
    applyStr idSent ⟨[(1, 1)], .delete⟩
        [(1, [(1, "Hello world.".data), (2, "Bye.".data)])]
      = .ok [(1, [(1, "Bye.".data)])] :=
  ⟨applyStr_dense sentencize p m m' hd hins h, by decide⟩

/-- Witness for C6 at the concrete delete of `1_1`: the resulting map is
dense and the surviving sentence is renumbered to `1`. -/
theorem C6_map_density_invariant_witness :
    DenseMap [(1, [(1, "Bye.".data)])] ∧
    applyStr idSent ⟨[(1, 1)], .delete⟩
        [(1, [(1, "Hello world.".data), (2, "Bye.".data)])]
      = .ok [(1, [(1, "Bye.".data)])] :=
  C6_map_density_invariant idSent ⟨[(1, 1)], .delete⟩
    [(1, [(1, "Hello world.".data), (2, "Bye.".data)])]
    [(1, [(1, "Bye.".data)])]
    (by decide) (fun text ht => StrOp.noConfusion ht) (by decide)

theorem sdMaxD_of_range {α : Type} {d : List (Nat × α)} {n : Nat} (hn : 1 ≤ n)
    (hk : keysOf d = List.range' 1 n) : sdMaxD d 0 = n := by
  have hdne : d ≠ [] := by
    intro hc
    rw [hc] at hk
    simp only [keysOf, List.map_nil] at hk
    rw [eq_comm, List.range'_eq_nil] at hk
    omega
  rw [sdMaxD_ne_nil hdne, hk, foldl_max_range'_of_le n 1 0 (by omega) (by omega)]
  omega

mutual

theorem jsonGoVal_dense : ∀ (j : Json) (path : PyStr) (am : List (Nat × PyStr))
    (n : Nat), keysOf am = List.range' 1 n →
    ∃ n2, n ≤ n2 ∧ keysOf (jsonGoVal j (n + 1) path am) = List.range' 1 n2 := by
  intro j path am n hk
  cases j with
  | str s => exact ⟨n, Nat.le_refl n, hk⟩
  | num v => exact ⟨n, Nat.le_refl n, hk⟩
  | bool b => exact ⟨n, Nat.le_refl n, hk⟩
  | null => exact ⟨n, Nat.le_refl n, hk⟩
  | obj fields => exact jsonGoFields_dense fields path am n hk
  | arr elems =>
    exact jsonGoElems_dense elems (n + 1) 1 path am n hk (fun h => by omega)

theorem jsonGoFields_dense : ∀ (fs : List (String × Json)) (path : PyStr)
    (am : List (Nat × PyStr)) (n : Nat), keysOf am = List.range' 1 n →
    ∃ n2, n ≤ n2 ∧ keysOf (jsonGoFields fs (n + 1) path am) = List.range' 1 n2 := by
  intro fs path am n hk
  match fs with
  | [] => exact ⟨n, Nat.le_refl n, hk⟩
  | (key, value) :: rest =>
    have hk1 : keysOf (sdSet am (n + 1) (jsonPointerKey path key.data))
        = List.range' 1 (n + 1) := by
      rw [keysOf_sdSet, hk, insertK_range'_max]
    obtain ⟨n2, hle2, hk2⟩ := jsonGoVal_dense value (jsonPointerKey path key.data)
      (sdSet am (n + 1) (jsonPointerKey path key.data)) (n + 1) hk1
    have hmax : sdMaxD (jsonGoVal value (n + 1 + 1) (jsonPointerKey path key.data)
        (sdSet am (n + 1) (jsonPointerKey path key.data))) 0 = n2 :=
      sdMaxD_of_range (by omega) hk2
    obtain ⟨n3, hle3, hk3⟩ := jsonGoFields_dense rest path _ n2 hk2
    refine ⟨n3, by omega, ?_⟩
    show keysOf (jsonGoFields ((key, value) :: rest) (n + 1) path am) = _
    rw [jsonGoFields]
    rw [hmax]
    exact hk3

theorem jsonGoElems_dense : ∀ (es : List Json) (start itemIdx : Nat)
    (path : PyStr) (am : List (Nat × PyStr)) (n : Nat),
    keysOf am = List.range' 1 n → (n = 0 → start = 1) →
    ∃ n2, n ≤ n2 ∧ keysOf (jsonGoElems es start itemIdx path am) = List.range' 1 n2 := by
  intro es start itemIdx path am n hk hstart
  match es with
  | [] => exact ⟨n, Nat.le_refl n, hk⟩
  | e :: rest =>
    obtain ⟨n2, hle2, hk2⟩ := jsonGoVal_dense e (jsonPointerIdx path (itemIdx - 1))
      am n hk
    obtain ⟨n3, hle3, hk3⟩ := jsonGoElems_dense rest start (itemIdx + 1) path
      (jsonGoVal e (n + 1) (jsonPointerIdx path (itemIdx - 1)) am) n2 hk2
      (fun hz => hstart (by omega))
    refine ⟨n3, by omega, ?_⟩
    show keysOf (jsonGoElems (e :: rest) start itemIdx path am) = _
    cases am with
    | nil =>
      have hz : n = 0 := by
        simp only [keysOf, List.map_nil] at hk
        rw [eq_comm, List.range'_eq_nil] at hk
        exact hk
      have h1 := hstart hz
      have hs : start = n + 1 := by omega
      rw [jsonGoElems]
      nth_rewrite 2 [hs]
      exact hk3
    | cons kv rest2 =>
      have hne : n ≠ 0 := by
        intro hc
        rw [hc] at hk
        simp [keysOf, List.range'_eq_nil] at hk
      rw [jsonGoElems]
      · rw [show sdMaxD (kv :: rest2) 0 + 1 = n + 1 from by
          rw [sdMaxD_of_range (by omega) hk]]
        exact hk3
      · simp
end

/-! ### C8: JSON attribute ids -/

/-- C8: JSON-mode attribute ids are assigned depth-first in document order
starting at 1 and are dense (hence globally monotonic and never reused within
one build), each mapped to the RFC-6901-escaped JSON-Pointer path of its key:
the example document yields exactly `{1:"/a", 2:"/b", 3:"/b/c"}`, a key with
`/` and `~` is escaped, and for every document the id set is `{1, …, n}`. -/
theorem C8_json_attribute_ids (j : Json) :
    buildJsonMap (.obj [("a", .num 1), ("b", .obj [("c", .arr [.num 2, .num 3])])])
      = [(1, "/a".data), (2, "/b".data), (3, "/b/c".data)] ∧
    buildJsonMap (.obj [("a/b~c", .null)]) = [(1, "/a~1b~0c".data)] ∧
    ∃ n, keysOf (buildJsonMap j) = List.range' 1 n := by
  refine ⟨by decide, by decide, ?_⟩
  obtain ⟨n2, _, hk⟩ := jsonGoVal_dense j [] [] 0 rfl
  exact ⟨n2, hk⟩
